import Mathlib

set_option maxHeartbeats 1000000

/-!
Shallow embedding of src/src/parser.rs, a nom-based parser for a Braille
translation-table definition language.  Input strings are `List Char`;
every parser returns how many characters it consumed (the remaining input
is the corresponding `List.drop` of its input), an error carrying the
input slice at the point of failure together with a nom `ErrorKind`, or
`panic`, which models a Rust panic (the `.unwrap()` call in
`chars_to_dots` can panic, and a panic propagates through every caller
without being caught by `alt`).
-/

/-- Error kinds mirroring the nom `ErrorKind` values this grammar can produce. -/
inductive ErrorKind : Type where
  | tagK
  | spaceK
  | hexDigitK
  | alphaK
  | crLfK
  | sepListK
  | manyK
deriving DecidableEq

/-- Outcome of running a parser: `ok consumed value` (the remaining input is
`input.drop consumed`), a recoverable nom error with the slice where the
failing sub-parser started, or a Rust panic. -/
inductive PResult (α : Type) : Type where
  | ok : Nat → α → PResult α
  | error : List Char → ErrorKind → PResult α
  | panic : PResult α
deriving DecidableEq

abbrev Parser (α : Type) : Type := List Char → PResult α

/-- Sequencing of parsers, as done by nom's `tuple`: run `p`, then run `f`
on the remaining input; consumed counts add up; errors and panics propagate. -/
def pbind {α β : Type} (p : Parser α) (f : α → Parser β) : Parser β := fun i =>
  match p i with
  | .ok n a =>
    match f a (i.drop n) with
    | .ok m b => .ok (n + m) b
    | .error e k => .error e k
    | .panic => .panic
  | .error e k => .error e k
  | .panic => .panic

/-- nom's `map` combinator. -/
def pmap {α β : Type} (p : Parser α) (f : α → β) : Parser β := fun i =>
  match p i with
  | .ok n a => .ok n (f a)
  | .error e k => .error e k
  | .panic => .panic

/-- Two-armed ordered choice; nom's `alt` is the right-nested chain of this.
A recoverable error moves on to the next alternative; a panic does not. -/
def palt {α : Type} (p q : Parser α) : Parser α := fun i =>
  match p i with
  | .error _ _ => q i
  | r => r

/-- nom's `opt` combinator: an error becomes `none` with nothing consumed. -/
def popt {α : Type} (p : Parser α) : Parser (Option α) := fun i =>
  match p i with
  | .ok n a => .ok n (some a)
  | .error _ _ => .ok 0 none
  | .panic => .panic

/-- nom's `success` combinator: always succeeds, consuming nothing. -/
def psuccess {α : Type} (v : α) : Parser α := fun _ => .ok 0 v

/-- A parser that panics, modelling an uncaught Rust panic. -/
def ppanic {α : Type} : Parser α := fun _ => .panic

/-- nom's `is_space`: blank or tab. -/
def is_space (c : Char) : Bool := c == ' ' || c == '\t'

/-- nom's hex-digit class used by `hex_digit1`: it accepts both the
lowercase and the uppercase hexadecimal letters. -/
def is_hex_digit (c : Char) : Bool :=
  (decide ('0' ≤ c ∧ c ≤ '9')) || (decide ('A' ≤ c ∧ c ≤ 'F')) ||
    (decide ('a' ≤ c ∧ c ≤ 'f'))

/-- ASCII letters, the class of nom's `alpha1`. -/
def is_ascii_alpha (c : Char) : Bool :=
  (decide ('A' ≤ c ∧ c ≤ 'Z')) || (decide ('a' ≤ c ∧ c ≤ 'z'))

/-- Modelled from the spec: `nom_unicode::complete::alpha1` accepts the
characters with the Unicode `Alphabetic` property (Rust's
`char::is_alphabetic`), whose table lives outside this repository.  The
model accepts the ASCII letters plus the Latin-1 supplement letters
(U+00C0 to U+00FF without the multiplication and division signs), all of
which are `Alphabetic` in Unicode, so a `true` here is always true of the
program; below U+0080 the model is exact, because there `Alphabetic`
coincides with the ASCII letters, and the theorems below rely on a
`false` only at such ASCII characters. -/
def is_unicode_alpha (c : Char) : Bool :=
  is_ascii_alpha c ||
    (decide (0xC0 ≤ c.toNat ∧ c.toNat ≤ 0xFF ∧ c.toNat ≠ 0xD7 ∧ c.toNat ≠ 0xF7))

/-- nom's `tag`: match a literal, consuming exactly it, else fail with `Tag`. -/
def tag (t : List Char) : Parser (List Char) := fun i =>
  if t.isPrefixOf i then .ok t.length t else .error i .tagK

/-- nom's `take_while1` pattern underlying `space1`, `hex_digit1`, `alpha1`:
take the maximal run of characters in the class, failing if it is empty. -/
def takeWhile1 (p : Char → Bool) (k : ErrorKind) : Parser (List Char) := fun i =>
  let pre := i.takeWhile p
  if pre.isEmpty then .error i k else .ok pre.length pre

/-- nom's `space0`: maximal (possibly empty) run of blanks and tabs. -/
def space0 : Parser (List Char) := fun i =>
  .ok (i.takeWhile is_space).length (i.takeWhile is_space)

def space1 : Parser (List Char) := takeWhile1 is_space .spaceK

def hex_digit1 : Parser (List Char) := takeWhile1 is_hex_digit .hexDigitK

def alpha1 : Parser (List Char) := takeWhile1 is_ascii_alpha .alphaK

def unicode_alpha1 : Parser (List Char) := takeWhile1 is_unicode_alpha .alphaK

/-- nom's `line_ending`: a line feed, or a carriage return followed by a
line feed; anything else is a `CrLf` error. -/
def line_ending : Parser (List Char) := fun i =>
  match i with
  | '\n' :: _ => .ok 1 ['\n']
  | '\r' :: '\n' :: _ => .ok 2 ['\r', '\n']
  | _ => .error i .crLfK

/-- nom's complete `not_line_ending`: the maximal run of characters other
than carriage return and line feed; a carriage return not followed by a
line feed makes the whole parser fail with a `Tag` error. -/
def not_line_ending : Parser (List Char) := fun i =>
  let pre := i.takeWhile (fun c => !(c == '\r' || c == '\n'))
  match i.dropWhile (fun c => !(c == '\r' || c == '\n')) with
  | '\r' :: '\n' :: _ => .ok pre.length pre
  | '\r' :: _ => .error i .tagK
  | _ => .ok pre.length pre

/-- The sixteen dot positions, one per hexadecimal digit. -/
inductive BrailleDot : Type where
  | DOT0 | DOT1 | DOT2 | DOT3 | DOT4 | DOT5 | DOT6 | DOT7
  | DOT8 | DOT9 | DOTA | DOTB | DOTC | DOTD | DOTE | DOTF
deriving DecidableEq

/-- `EnumSet<BrailleDot>` from the source, as a finite set of dots. -/
abbrev BrailleChar : Type := Finset BrailleDot

abbrev BrailleChars : Type := List BrailleChar

/-- The three rule modifier keywords. -/
inductive PrefixFlag : Type where
  | Noback | Nofor | Nocross
deriving DecidableEq

/-- `EnumSet<Prefix>` from the source (the source names the flag type
`Prefix`; renamed here because of the Lean keyword). -/
abbrev Prefixes : Type := Finset PrefixFlag

/-- The `Rule` enum of the source; borrowed string slices become `List Char`. -/
inductive Rule : Type where
  | Include (filename : List Char)
  | Undefined (dots : BrailleChars)
  | Display (chars : List Char) (dots : BrailleChars) (prefixes : Prefixes)
  | Multind (chars : List Char) (dots : BrailleChars) (prefixes : Prefixes)
  | Largesign (word : List Char) (dots : BrailleChars)
  | Syllable (word : List Char) (dots : BrailleChars)
  | Joinword (word : List Char) (dots : BrailleChars)
deriving DecidableEq

/-- The `Line` enum of the source. -/
inductive Line : Type where
  | Empty
  | Comment (comment : List Char)
  | Rule (rule : Rule) (comment : List Char)
deriving DecidableEq

/-- `char_to_dot`: one lowercase hex digit to its dot; `none` otherwise. -/
def char_to_dot (c : Char) : Option BrailleDot :=
  match c with
  | '0' => some BrailleDot.DOT0
  | '1' => some BrailleDot.DOT1
  | '2' => some BrailleDot.DOT2
  | '3' => some BrailleDot.DOT3
  | '4' => some BrailleDot.DOT4
  | '5' => some BrailleDot.DOT5
  | '6' => some BrailleDot.DOT6
  | '7' => some BrailleDot.DOT7
  | '8' => some BrailleDot.DOT8
  | '9' => some BrailleDot.DOT9
  | 'a' => some BrailleDot.DOTA
  | 'b' => some BrailleDot.DOTB
  | 'c' => some BrailleDot.DOTC
  | 'd' => some BrailleDot.DOTD
  | 'e' => some BrailleDot.DOTE
  | 'f' => some BrailleDot.DOTF
  | _ => none

/-- Map a partial function over a list, failing at the first undefined
element: the shape of a Rust iterator of `unwrap`ped values, where `none`
is a panic. -/
def mapOption {α β : Type} (f : α → Option β) : List α → Option (List β)
  | [] => some []
  | a :: t =>
    match f a, mapOption f t with
    | some b, some bs => some (b :: bs)
    | _, _ => none

/-- `chars_to_dots`: decode every character and collect the dots into one
cell.  The source unwraps each `char_to_dot` result, so a character outside
`0-9a-f` makes it panic: that is the `none` outcome here. -/
def chars_to_dots (cs : List Char) : Option BrailleChar :=
  (mapOption char_to_dot cs).map List.toFinset

/-- `chars`: the Unicode-letter word matcher used by every rule argument. -/
def chars : Parser (List Char) := unicode_alpha1

/-- `ascii_chars`: the ASCII-letter matcher (defined in the source, unused
by the grammar). -/
def ascii_chars : Parser (List Char) := alpha1

/-- The loop of nom's `separated_list1(tag("-"), hex_digit1)` after the
first element: repeatedly parse a dash and a hex run, stopping (without
consuming the dash) as soon as either fails; the `SeparatedList` guard is
nom's protection against a separator that consumes nothing.  The fuel
argument is for termination only; callers pass more fuel than the input
length, which the progress of `tag` makes sufficient. -/
def sepHexLoop : Nat → Parser (List (List Char))
  | 0, i => .error i .manyK
  | fuel + 1, i =>
    match tag ['-'] i with
    | .error _ _ => .ok 0 []
    | .panic => .panic
    | .ok ns _ =>
      if (i.drop ns).length = i.length then .error (i.drop ns) .sepListK
      else
        match hex_digit1 (i.drop ns) with
        | .error _ _ => .ok 0 []
        | .panic => .panic
        | .ok nf run =>
          match sepHexLoop fuel ((i.drop ns).drop nf) with
          | .ok m runs => .ok (ns + (nf + m)) (run :: runs)
          | .error e k => .error e k
          | .panic => .panic

/-- nom's `separated_list1(tag("-"), hex_digit1)`: one hex run, then the loop. -/
def hex_list : Parser (List (List Char)) := fun i =>
  match hex_digit1 i with
  | .ok n run =>
    match sepHexLoop ((i.drop n).length + 1) (i.drop n) with
    | .ok m runs => .ok (n + m) (run :: runs)
    | .error e k => .error e k
    | .panic => .panic
  | .error e k => .error e k
  | .panic => .panic

/-- `dots`: dash-separated hex runs, each decoded to one cell.  The decoding
unwrap panics when a run contains a character `char_to_dot` rejects. -/
def dots : Parser BrailleChars := fun i =>
  match hex_list i with
  | .ok n runs =>
    match mapOption chars_to_dots runs with
    | some cells => .ok n cells
    | none => .panic
  | .error e k => .error e k
  | .panic => .panic

/-- `prefixes`: ordered choice over the five keyword combinations, with
`success` (the empty set, consuming nothing) as the final alternative. -/
def prefixes : Parser Prefixes :=
  palt
    (pmap
      (pbind (tag ("noback".toList)) fun _ =>
       pbind space1 fun _ =>
       pbind (tag ("nocross".toList)) fun _ => space1)
      fun _ => ({PrefixFlag.Noback, PrefixFlag.Nocross} : Prefixes))
  (palt
    (pmap
      (pbind (tag ("nofor".toList)) fun _ =>
       pbind space1 fun _ =>
       pbind (tag ("nocross".toList)) fun _ => space1)
      fun _ => ({PrefixFlag.Nofor, PrefixFlag.Nocross} : Prefixes))
  (palt
    (pmap (pbind (tag ("nofor".toList)) fun _ => space1)
      fun _ => ({PrefixFlag.Nofor} : Prefixes))
  (palt
    (pmap (pbind (tag ("noback".toList)) fun _ => space1)
      fun _ => ({PrefixFlag.Noback} : Prefixes))
  (palt
    (pmap (pbind (tag ("nocross".toList)) fun _ => space1)
      fun _ => ({PrefixFlag.Nocross} : Prefixes))
    (psuccess (∅ : Prefixes))))))

/-- `include` from the source (named `include_rule` here because `include`
is a Lean keyword): the keyword, whitespace, and a `chars` word as filename. -/
def include_rule : Parser Rule :=
  pbind (tag ("include".toList)) fun _ =>
  pbind space1 fun _ =>
  pmap chars fun filename => Rule.Include filename

def undefined : Parser Rule :=
  pbind (tag ("undefined".toList)) fun _ =>
  pbind space1 fun _ =>
  pmap dots fun ds => Rule.Undefined ds

/-- `display`: optional prefixes, the keyword, a word, and a dot pattern.
The source unwraps the `opt` result when building the rule. -/
def display : Parser Rule :=
  pbind (popt prefixes) fun po =>
  pbind (tag ("display".toList)) fun _ =>
  pbind space1 fun _ =>
  pbind chars fun cs =>
  pbind space1 fun _ =>
  pbind dots fun ds =>
  match po with
  | some p => psuccess (Rule.Display cs ds p)
  | none => ppanic

def multind : Parser Rule :=
  pbind (popt prefixes) fun po =>
  pbind (tag ("multind".toList)) fun _ =>
  pbind space1 fun _ =>
  pbind chars fun cs =>
  pbind space1 fun _ =>
  pbind dots fun ds =>
  match po with
  | some p => psuccess (Rule.Multind cs ds p)
  | none => ppanic

def largesign : Parser Rule :=
  pbind (tag ("largesign".toList)) fun _ =>
  pbind space1 fun _ =>
  pbind chars fun w =>
  pbind space1 fun _ =>
  pmap dots fun ds => Rule.Largesign w ds

def syllable : Parser Rule :=
  pbind (tag ("syllable".toList)) fun _ =>
  pbind space1 fun _ =>
  pbind chars fun w =>
  pbind space1 fun _ =>
  pmap dots fun ds => Rule.Syllable w ds

def joinword : Parser Rule :=
  pbind (tag ("joinword".toList)) fun _ =>
  pbind space1 fun _ =>
  pbind chars fun w =>
  pbind space1 fun _ =>
  pmap dots fun ds => Rule.Joinword w ds

/-- `end_comment`: required whitespace, then the rest of the line verbatim. -/
def end_comment : Parser (List Char) :=
  pbind space1 fun _ => pmap not_line_ending fun c => c

/-- The `alt` over the seven rule parsers, in source order. -/
def rule_alt : Parser Rule :=
  palt include_rule
  (palt undefined
  (palt display
  (palt multind
  (palt largesign
  (palt joinword syllable)))))

/-- `rule_line`: a rule, an optional trailing comment, and a mandatory
line terminator. -/
def rule_line : Parser Line :=
  pbind rule_alt fun r =>
  pbind (palt end_comment space0) fun c =>
  pmap line_ending fun _ => Line.Rule r c

/-- `comment_line`: a hash sign, the rest of the line, and a terminator. -/
def comment_line : Parser Line :=
  pbind (tag ['#']) fun _ =>
  pbind not_line_ending fun c =>
  pmap line_ending fun _ => Line.Comment c

/-- `empty_line`: optional whitespace and a mandatory terminator. -/
def empty_line : Parser Line :=
  pbind space0 fun _ => pmap line_ending fun _ => Line.Empty

/-- `line`: ordered choice of the three line forms. -/
def line : Parser Line := palt rule_line (palt comment_line empty_line)

/-- The loop of nom's `many0(line)`: accumulate successful `line` parses,
stopping at the first recoverable error; nom's `Many0` guard rejects an
inner parser that consumes nothing.  Fuel is for termination only; `table`
passes more fuel than the input length, which the guard makes sufficient. -/
def tableAux : Nat → Parser (List Line)
  | 0, i => .error i .manyK
  | fuel + 1, i =>
    match line i with
    | .error _ _ => .ok 0 []
    | .panic => .panic
    | .ok n l =>
      if (i.drop n).length = i.length then .error i .manyK
      else
        match tableAux fuel (i.drop n) with
        | .ok m ls => .ok (n + m) (l :: ls)
        | .error e k => .error e k
        | .panic => .panic

/-- `table`: `many0(line)` over the whole input. -/
def table : Parser (List Line) := fun i => tableAux (i.length + 1) i

/-- The sixteen lowercase dot digits, the alphabet of a well-formed dot run. -/
def lowerHexDigits : List Char := "0123456789abcdef".toList

/-- The unique character a dot decodes from; inverse of `char_to_dot`. -/
def dot_to_char (d : BrailleDot) : Char :=
  match d with
  | .DOT0 => '0'
  | .DOT1 => '1'
  | .DOT2 => '2'
  | .DOT3 => '3'
  | .DOT4 => '4'
  | .DOT5 => '5'
  | .DOT6 => '6'
  | .DOT7 => '7'
  | .DOT8 => '8'
  | .DOT9 => '9'
  | .DOTA => 'a'
  | .DOTB => 'b'
  | .DOTC => 'c'
  | .DOTD => 'd'
  | .DOTE => 'e'
  | .DOTF => 'f'

/-- The cell a run of characters decodes to (the defined part of the
decoding, used in theorem statements). -/
def cellOf (r : List Char) : BrailleChar := (r.filterMap char_to_dot).toFinset

/-- The dash-separated tail of a run sequence: a dash before every run. -/
def dashTail : List (List Char) → List Char
  | [] => []
  | r :: rs => '-' :: (r ++ dashTail rs)

/-- Runs joined by single dashes, in order. -/
def dashJoin : List (List Char) → List Char
  | [] => []
  | r :: rs => r ++ dashTail rs

/-- The six prefix-flag sets the grammar can produce. -/
def sixPrefixSets : List Prefixes :=
  [∅, {PrefixFlag.Nocross}, {PrefixFlag.Noback}, {PrefixFlag.Nofor},
   {PrefixFlag.Noback, PrefixFlag.Nocross}, {PrefixFlag.Nofor, PrefixFlag.Nocross}]

theorem pbind_ok {α β : Type} {p : Parser α} {f : α → Parser β} {i : List Char}
    {n : Nat} {b : β} :
    pbind p f i = .ok n b ↔
      ∃ n1 a n2, p i = .ok n1 a ∧ f a (i.drop n1) = .ok n2 b ∧ n = n1 + n2 := by
  unfold pbind
  cases h : p i with
  | ok n1 a =>
    cases h2 : f a (i.drop n1) with
    | ok m b' =>
      simp only [h, h2, PResult.ok.injEq]
      constructor
      · rintro ⟨rfl, rfl⟩
        exact ⟨n1, a, m, ⟨rfl, rfl⟩, h2, rfl⟩
      · rintro ⟨n1', a', n2', ⟨rfl, rfl⟩, h2', rfl⟩
        rw [h2] at h2'
        injection h2' with e3 e4
        subst e3; subst e4
        exact ⟨rfl, rfl⟩
    | error e k =>
      simp only [h, h2, PResult.ok.injEq]
      constructor
      · intro hh; cases hh
      · rintro ⟨n1', a', n2', ⟨rfl, rfl⟩, h2', rfl⟩
        rw [h2] at h2'
        cases h2'
    | panic =>
      simp only [h, h2, PResult.ok.injEq]
      constructor
      · intro hh; cases hh
      · rintro ⟨n1', a', n2', ⟨rfl, rfl⟩, h2', rfl⟩
        rw [h2] at h2'
        cases h2'
  | error e k => simp [h]
  | panic => simp [h]

theorem pmap_ok {α β : Type} {p : Parser α} {f : α → β} {i : List Char}
    {n : Nat} {b : β} :
    pmap p f i = .ok n b ↔ ∃ a, p i = .ok n a ∧ b = f a := by
  unfold pmap
  cases h : p i with
  | ok n1 a =>
    simp only [h, PResult.ok.injEq]
    constructor
    · rintro ⟨rfl, rfl⟩
      exact ⟨a, ⟨rfl, rfl⟩, rfl⟩
    · rintro ⟨a', ⟨rfl, rfl⟩, rfl⟩
      exact ⟨rfl, rfl⟩
  | error e k => simp [h]
  | panic => simp [h]

theorem palt_ok {α : Type} {p q : Parser α} {i : List Char} {n : Nat} {v : α} :
    palt p q i = .ok n v ↔
      p i = .ok n v ∨ (∃ e k, p i = .error e k) ∧ q i = .ok n v := by
  unfold palt
  cases h : p i with
  | ok n1 a => simp [h]
  | error e k => simp [h]
  | panic => simp [h]

theorem popt_ok {α : Type} {p : Parser α} {i : List Char} {n : Nat}
    {o : Option α} :
    popt p i = .ok n o ↔
      ((∃ e k, p i = .error e k) ∧ n = 0 ∧ o = none) ∨
        (∃ a, p i = .ok n a ∧ o = some a) := by
  unfold popt
  cases h : p i with
  | ok n1 a =>
    simp only [h, PResult.ok.injEq]
    constructor
    · rintro ⟨rfl, rfl⟩
      exact Or.inr ⟨a, ⟨rfl, rfl⟩, rfl⟩
    · rintro (⟨⟨e, k, he⟩, rfl, rfl⟩ | ⟨a', ⟨rfl, rfl⟩, rfl⟩)
      · cases he
      · exact ⟨rfl, rfl⟩
  | error e k =>
    simp only [h, PResult.ok.injEq]
    constructor
    · rintro ⟨rfl, rfl⟩
      exact Or.inl ⟨⟨e, k, rfl⟩, rfl, rfl⟩
    · rintro (⟨⟨e', k', he⟩, rfl, rfl⟩ | ⟨a', ha', rfl⟩)
      · exact ⟨rfl, rfl⟩
      · cases ha'
  | panic =>
    simp only [h]
    constructor
    · intro hh; cases hh
    · rintro (⟨⟨e', k', he⟩, rfl, rfl⟩ | ⟨a', ha', rfl⟩)
      · cases he
      · cases ha'

theorem tag_no_panic (t : List Char) : ∀ i, tag t i ≠ .panic := by
  intro i; unfold tag; split <;> simp

theorem takeWhile1_no_panic (p : Char → Bool) (k : ErrorKind) :
    ∀ i, takeWhile1 p k i ≠ .panic := by
  intro i
  cases hc : (List.takeWhile p i).isEmpty <;> simp [takeWhile1, hc]

theorem space1_no_panic : ∀ i, space1 i ≠ .panic :=
  takeWhile1_no_panic is_space .spaceK

theorem pbind_no_panic {α β : Type} (p : Parser α) (f : α → Parser β)
    (hp : ∀ j, p j ≠ .panic) (hf : ∀ a j, f a j ≠ .panic) :
    ∀ i, pbind p f i ≠ .panic := by
  intro i; unfold pbind
  cases h : p i with
  | ok n a =>
    cases h2 : f a (i.drop n) with
    | ok m b => simp [h2]
    | error e k => simp [h2]
    | panic => exact absurd h2 (hf a (i.drop n))
  | error e k => simp
  | panic => exact absurd h (hp i)

theorem pmap_no_panic {α β : Type} (p : Parser α) (f : α → β)
    (hp : ∀ j, p j ≠ .panic) : ∀ i, pmap p f i ≠ .panic := by
  intro i; unfold pmap
  cases h : p i with
  | ok n a => simp
  | error e k => simp
  | panic => exact absurd h (hp i)

theorem palt_total {α : Type} {p q : Parser α} {i : List Char}
    (hp : ∀ j, p j ≠ .panic) (hq : ∃ n v, q i = .ok n v) :
    ∃ n v, palt p q i = .ok n v := by
  obtain ⟨n, v, hqe⟩ := hq
  unfold palt
  cases h : p i with
  | ok n1 a => exact ⟨n1, a, rfl⟩
  | error e k => exact ⟨n, v, hqe⟩
  | panic => exact absurd h (hp i)

theorem line_ending_ok {i : List Char} {n : Nat} {v : List Char} :
    line_ending i = .ok n v ↔
      (n = 1 ∧ v = ['\n'] ∧ ∃ t, i = '\n' :: t) ∨
        (n = 2 ∧ v = ['\r', '\n'] ∧ ∃ t, i = '\r' :: '\n' :: t) := by
  unfold line_ending
  split
  case _ t => simp_all [eq_comm]
  case _ t => simp_all [eq_comm]
  case _ h1 h2 =>
    constructor
    · intro h; cases h
    · rintro (⟨rfl, rfl, t, rfl⟩ | ⟨rfl, rfl, t, rfl⟩)
      · exact absurd rfl (h1 t)
      · exact absurd rfl (h2 t)

theorem line_nil : line ([] : List Char) = .error [] .crLfK := by decide

theorem rule_line_consumes {i : List Char} {n : Nat} {l : Line}
    (h : rule_line i = .ok n l) : 1 ≤ n := by
  simp only [rule_line] at h
  rcases pbind_ok.mp h with ⟨n1, r, nrest, h1, h2, rfl⟩
  rcases pbind_ok.mp h2 with ⟨n2, c, n3, h3, h4, rfl⟩
  rcases pmap_ok.mp h4 with ⟨v, h5, _⟩
  rcases line_ending_ok.mp h5 with ⟨rfl, _, _⟩ | ⟨rfl, _, _⟩ <;> omega

theorem comment_line_consumes {i : List Char} {n : Nat} {l : Line}
    (h : comment_line i = .ok n l) : 1 ≤ n := by
  simp only [comment_line] at h
  rcases pbind_ok.mp h with ⟨n1, r, nrest, h1, h2, rfl⟩
  rcases pbind_ok.mp h2 with ⟨n2, c, n3, h3, h4, rfl⟩
  rcases pmap_ok.mp h4 with ⟨v, h5, _⟩
  rcases line_ending_ok.mp h5 with ⟨rfl, _, _⟩ | ⟨rfl, _, _⟩ <;> omega

theorem empty_line_consumes {i : List Char} {n : Nat} {l : Line}
    (h : empty_line i = .ok n l) : 1 ≤ n := by
  simp only [empty_line] at h
  rcases pbind_ok.mp h with ⟨n1, r, nrest, h1, h2, rfl⟩
  rcases pmap_ok.mp h2 with ⟨v, h5, _⟩
  rcases line_ending_ok.mp h5 with ⟨rfl, _, _⟩ | ⟨rfl, _, _⟩ <;> omega

theorem line_consumes {i : List Char} {n : Nat} {l : Line}
    (h : line i = .ok n l) : 1 ≤ n := by
  simp only [line] at h
  rcases palt_ok.mp h with h1 | ⟨_, h1⟩
  · exact rule_line_consumes h1
  · rcases palt_ok.mp h1 with h2 | ⟨_, h2⟩
    · exact comment_line_consumes h2
    · exact empty_line_consumes h2

/-- C10: for every finite input the `table` parser terminates, because every
successful `line` parse consumes at least one input character, so the
repetition inside `table` makes strict progress: the remaining input after a
successful `line` parse is strictly shorter than its input (in this
embedding `table` is structurally total, so the progress fact is the whole
content of the claim; the linear-time bound is outside the embedding). -/
theorem claimC10_line_progress (i : List Char) (n : Nat) (l : Line)
    (h : line i = .ok n l) : 1 ≤ n ∧ (i.drop n).length < i.length := by
  have hn : 1 ≤ n := line_consumes h
  have hne : i ≠ [] := by
    intro he
    subst he
    rw [line_nil] at h
    cases h
  have hpos : 0 < i.length := List.length_pos.mpr hne
  refine ⟨hn, ?_⟩
  rw [List.length_drop]
  omega

theorem claimC10_witness :
    1 ≤ 1 ∧ ((("\n".toList).drop 1).length < ("\n".toList).length) :=
  claimC10_line_progress ("\n".toList) 1 Line.Empty (by decide)

theorem prefixes_total (i : List Char) : ∃ n p, prefixes i = .ok n p := by
  unfold prefixes
  apply palt_total
  · exact pmap_no_panic _ _ (pbind_no_panic _ _ (tag_no_panic _) fun _ =>
      pbind_no_panic _ _ space1_no_panic fun _ =>
        pbind_no_panic _ _ (tag_no_panic _) fun _ => space1_no_panic)
  apply palt_total
  · exact pmap_no_panic _ _ (pbind_no_panic _ _ (tag_no_panic _) fun _ =>
      pbind_no_panic _ _ space1_no_panic fun _ =>
        pbind_no_panic _ _ (tag_no_panic _) fun _ => space1_no_panic)
  apply palt_total
  · exact pmap_no_panic _ _ (pbind_no_panic _ _ (tag_no_panic _) fun _ =>
      space1_no_panic)
  apply palt_total
  · exact pmap_no_panic _ _ (pbind_no_panic _ _ (tag_no_panic _) fun _ =>
      space1_no_panic)
  apply palt_total
  · exact pmap_no_panic _ _ (pbind_no_panic _ _ (tag_no_panic _) fun _ =>
      space1_no_panic)
  exact ⟨0, ∅, rfl⟩

/-- C4: the `prefixes` parser is total: on every input it succeeds with some
(possibly empty) flag set; and on "noback nocross " it consumes all fifteen
characters (both keywords and their trailing whitespace, the combined
alternative being tried before the single-keyword ones) and returns the set
containing `Noback` and `Nocross`. -/
theorem claimC4_prefixes_total :
    (∀ i, ∃ n p, prefixes i = .ok n p) ∧
      prefixes ("noback nocross ".toList) =
        .ok 15 ({PrefixFlag.Noback, PrefixFlag.Nocross} : Prefixes) :=
  ⟨prefixes_total, by decide⟩

theorem prefixes_six {i : List Char} {n : Nat} {p : Prefixes}
    (h : prefixes i = .ok n p) : p ∈ sixPrefixSets := by
  simp only [prefixes] at h
  rcases palt_ok.mp h with h1 | ⟨_, h1⟩
  · rcases pmap_ok.mp h1 with ⟨a, _, rfl⟩
    decide
  rcases palt_ok.mp h1 with h2 | ⟨_, h2⟩
  · rcases pmap_ok.mp h2 with ⟨a, _, rfl⟩
    decide
  rcases palt_ok.mp h2 with h3 | ⟨_, h3⟩
  · rcases pmap_ok.mp h3 with ⟨a, _, rfl⟩
    decide
  rcases palt_ok.mp h3 with h4 | ⟨_, h4⟩
  · rcases pmap_ok.mp h4 with ⟨a, _, rfl⟩
    decide
  rcases palt_ok.mp h4 with h5 | ⟨_, h5⟩
  · rcases pmap_ok.mp h5 with ⟨a, _, rfl⟩
    decide
  simp only [psuccess] at h5
  injection h5 with e1 e2
  subst e2
  decide

theorem six_not_both {p : Prefixes} (h : p ∈ sixPrefixSets) :
    ¬(PrefixFlag.Noback ∈ p ∧ PrefixFlag.Nofor ∈ p) := by
  fin_cases h <;> decide

theorem display_ok_prefixes {i : List Char} {n : Nat} {c : List Char}
    {d : BrailleChars} {p : Prefixes}
    (h : display i = .ok n (Rule.Display c d p)) :
    ∃ m, prefixes i = .ok m p := by
  simp only [display] at h
  rcases pbind_ok.mp h with ⟨n1, po, m1, h1, h2, rfl⟩
  rcases pbind_ok.mp h2 with ⟨n2, t2, m2, _, h3, rfl⟩
  rcases pbind_ok.mp h3 with ⟨n3, t3, m3, _, h4, rfl⟩
  rcases pbind_ok.mp h4 with ⟨n4, cs, m4, _, h5, rfl⟩
  rcases pbind_ok.mp h5 with ⟨n5, t5, m5, _, h6, rfl⟩
  rcases pbind_ok.mp h6 with ⟨n6, ds, m6, _, h7, rfl⟩
  cases po with
  | none => simp [ppanic] at h7
  | some p0 =>
    simp only [psuccess] at h7
    injection h7 with e1 e2
    injection e2 with ec ed ep
    subst ep
    rcases popt_ok.mp h1 with ⟨_, _, hno⟩ | ⟨a, hp, hsome⟩
    · cases hno
    · injection hsome with ea
      subst ea
      exact ⟨n1, hp⟩

theorem multind_ok_prefixes {i : List Char} {n : Nat} {c : List Char}
    {d : BrailleChars} {p : Prefixes}
    (h : multind i = .ok n (Rule.Multind c d p)) :
    ∃ m, prefixes i = .ok m p := by
  simp only [multind] at h
  rcases pbind_ok.mp h with ⟨n1, po, m1, h1, h2, rfl⟩
  rcases pbind_ok.mp h2 with ⟨n2, t2, m2, _, h3, rfl⟩
  rcases pbind_ok.mp h3 with ⟨n3, t3, m3, _, h4, rfl⟩
  rcases pbind_ok.mp h4 with ⟨n4, cs, m4, _, h5, rfl⟩
  rcases pbind_ok.mp h5 with ⟨n5, t5, m5, _, h6, rfl⟩
  rcases pbind_ok.mp h6 with ⟨n6, ds, m6, _, h7, rfl⟩
  cases po with
  | none => simp [ppanic] at h7
  | some p0 =>
    simp only [psuccess] at h7
    injection h7 with e1 e2
    injection e2 with ec ed ep
    subst ep
    rcases popt_ok.mp h1 with ⟨_, _, hno⟩ | ⟨a, hp, hsome⟩
    · cases hno
    · injection hsome with ea
      subst ea
      exact ⟨n1, hp⟩

/-- C5: every flag set the `prefixes` parser returns is one of the six sets
{}, {Nocross}, {Noback}, {Nofor}, {Noback,Nocross}, {Nofor,Nocross}; and the
prefix sets stored in parsed Display and Multind rules never contain both
`Noback` and `Nofor`. -/
theorem claimC5_prefix_sets :
    (∀ i n p, prefixes i = .ok n p → p ∈ sixPrefixSets) ∧
    (∀ i n c d p, display i = .ok n (Rule.Display c d p) →
        ¬(PrefixFlag.Noback ∈ p ∧ PrefixFlag.Nofor ∈ p)) ∧
    (∀ i n c d p, multind i = .ok n (Rule.Multind c d p) →
        ¬(PrefixFlag.Noback ∈ p ∧ PrefixFlag.Nofor ∈ p)) := by
  refine ⟨fun i n p h => prefixes_six h, fun i n c d p h => ?_, fun i n c d p h => ?_⟩
  · obtain ⟨m, hm⟩ := display_ok_prefixes h
    exact six_not_both (prefixes_six hm)
  · obtain ⟨m, hm⟩ := multind_ok_prefixes h
    exact six_not_both (prefixes_six hm)

theorem claimC5_witness :
    ({PrefixFlag.Nocross} : Prefixes) ∈ sixPrefixSets ∧
    ¬(PrefixFlag.Noback ∈ ({PrefixFlag.Nocross} : Prefixes) ∧
        PrefixFlag.Nofor ∈ ({PrefixFlag.Nocross} : Prefixes)) ∧
    ¬(PrefixFlag.Noback ∈ ({PrefixFlag.Noback, PrefixFlag.Nocross} : Prefixes) ∧
        PrefixFlag.Nofor ∈ ({PrefixFlag.Noback, PrefixFlag.Nocross} : Prefixes)) :=
  ⟨claimC5_prefix_sets.1 ("nocross x".toList) 8 {PrefixFlag.Nocross} (by decide),
   claimC5_prefix_sets.2.1 ("nocross display haha 122".toList) 24 ("haha".toList)
     [({BrailleDot.DOT1, BrailleDot.DOT2} : BrailleChar)] {PrefixFlag.Nocross}
     (by decide),
   claimC5_prefix_sets.2.2 ("noback nocross multind hehe 123".toList) 31 ("hehe".toList)
     [({BrailleDot.DOT1, BrailleDot.DOT2, BrailleDot.DOT3} : BrailleChar)]
     {PrefixFlag.Noback, PrefixFlag.Nocross} (by decide)⟩

theorem takeWhile_all_append {p : Char → Bool} {r t : List Char}
    (h : ∀ c ∈ r, p c = true)
    (ht : ∀ c, t.head? = some c → p c = false) :
    (r ++ t).takeWhile p = r ∧ (r ++ t).dropWhile p = t := by
  induction r with
  | nil =>
    cases t with
    | nil => simp
    | cons c t' =>
      have hc := ht c rfl
      simp [List.takeWhile_cons, List.dropWhile_cons, hc]
  | cons a r' ih =>
    have ha : p a = true := h a (by simp)
    have ih' := ih (fun c hc => h c (by simp [hc]))
    simp [List.takeWhile_cons, List.dropWhile_cons, ha, ih'.1, ih'.2]

theorem not_line_ending_at_lf (text rest : List Char)
    (h : ∀ c ∈ text, c ≠ '\r' ∧ c ≠ '\n') :
    not_line_ending (text ++ '\n' :: rest) = .ok text.length text := by
  have hp : ∀ c ∈ text, (fun c => !(c == '\r' || c == '\n')) c = true := by
    intro c hc
    obtain ⟨h1, h2⟩ := h c hc
    simp [h1, h2]
  have hh : ∀ c, (('\n' :: rest : List Char)).head? = some c →
      (fun c => !(c == '\r' || c == '\n')) c = false := by
    intro c hc
    injection hc with e
    subst e
    simp
  obtain ⟨ht, hd⟩ := takeWhile_all_append hp hh
  simp only [not_line_ending]
  rw [hd, ht]
  simp

/-- C9: a line made of a literal hash sign, arbitrary text free of line
terminator characters, and a line feed parses as a comment line capturing
exactly the text after the hash sign, unstripped (any leading space is
preserved); the whole hash-text-linefeed span is consumed. -/
theorem claimC9_comment_line (text rest : List Char)
    (h : ∀ c ∈ text, c ≠ '\r' ∧ c ≠ '\n') :
    comment_line ('#' :: (text ++ '\n' :: rest)) =
      .ok (text.length + 2) (Line.Comment text) := by
  have htag : tag ['#'] ('#' :: (text ++ '\n' :: rest)) = .ok 1 ['#'] := by
    simp [tag, List.isPrefixOf]
  have hnle := not_line_ending_at_lf text rest h
  have hle : line_ending (('\n' :: rest : List Char)) = .ok 1 ['\n'] := rfl
  simp only [comment_line, pbind, pmap, htag]
  simp only [List.drop_succ_cons, List.drop_zero, hnle]
  have hdrop : (text ++ '\n' :: rest).drop text.length = '\n' :: rest := by
    rw [List.drop_append_of_le_length (by simp)]
    simp
  rw [hdrop, hle]
  simp
  omega

theorem claimC9_witness :
    comment_line ('#' :: ((" just testing".toList) ++ '\n' :: [])) =
      .ok ((" just testing".toList).length + 2)
        (Line.Comment (" just testing".toList)) :=
  claimC9_comment_line (" just testing".toList) [] (by decide)

/-- C8: a rule line is accepted only when, after the rule and the optional
trailing comment, the input continues with a line terminator: whenever
`rule_line` succeeds, the character just before the returned rest of input
is a line feed; and whenever the rule part and the comment part succeed but
no line terminator follows (for instance a final line without a trailing
newline), `rule_line` fails with that terminator error. -/
theorem claimC8_rule_line_terminator :
    (∀ i n l, rule_line i = .ok n l →
        1 ≤ n ∧ i.drop (n - 1) = '\n' :: i.drop n) ∧
    (∀ i n1 r n2 c e k, rule_alt i = .ok n1 r →
        palt end_comment space0 (i.drop n1) = .ok n2 c →
        line_ending (i.drop (n1 + n2)) = .error e k →
        rule_line i = .error e k) := by
  constructor
  · intro i n l h
    simp only [rule_line] at h
    rcases pbind_ok.mp h with ⟨n1, r, m1, h1, h2, rfl⟩
    rcases pbind_ok.mp h2 with ⟨n2, c, m2, h3, h4, rfl⟩
    rcases pmap_ok.mp h4 with ⟨v, h5, _⟩
    have hdd : (i.drop n1).drop n2 = i.drop (n1 + n2) := by
      rw [List.drop_drop]
    rcases line_ending_ok.mp h5 with ⟨rfl, _, t, heq⟩ | ⟨rfl, _, t, heq⟩
    · rw [hdd] at heq
      have ht : t = i.drop (n1 + n2 + 1) := by
        have hc := congrArg List.tail heq
        rw [List.tail_drop] at hc
        simpa using hc.symm
      refine ⟨by omega, ?_⟩
      have e1 : n1 + (n2 + 1) - 1 = n1 + n2 := by omega
      have e2 : n1 + (n2 + 1) = n1 + n2 + 1 := by omega
      rw [e1, e2, heq, ht]
    · rw [hdd] at heq
      have ht1 : i.drop (n1 + n2 + 1) = '\n' :: t := by
        have hc := congrArg List.tail heq
        rw [List.tail_drop] at hc
        simpa using hc
      have ht2 : t = i.drop (n1 + n2 + 2) := by
        have hc := congrArg List.tail ht1
        rw [List.tail_drop] at hc
        simpa using hc.symm
      refine ⟨by omega, ?_⟩
      have e1 : n1 + (n2 + 2) - 1 = n1 + n2 + 1 := by omega
      have e2 : n1 + (n2 + 2) = n1 + n2 + 2 := by omega
      rw [e1, e2, ht1, ht2]
  · intro i n1 r n2 c e k h1 h2 h3
    simp only [rule_line, pbind, pmap, h1, h2, List.drop_drop, h3]

theorem claimC8_witness :
    (1 ≤ 18 ∧ ("joinword haha 123\n".toList).drop 17 =
        '\n' :: ("joinword haha 123\n".toList).drop 18) ∧
    rule_line ("joinword haha 123".toList) = .error [] .crLfK :=
  ⟨claimC8_rule_line_terminator.1 ("joinword haha 123\n".toList) 18
      (Line.Rule (Rule.Joinword ("haha".toList)
        [({BrailleDot.DOT1, BrailleDot.DOT2, BrailleDot.DOT3} : BrailleChar)]) [])
      (by decide),
   claimC8_rule_line_terminator.2 ("joinword haha 123".toList) 17
      (Rule.Joinword ("haha".toList)
        [({BrailleDot.DOT1, BrailleDot.DOT2, BrailleDot.DOT3} : BrailleChar)])
      0 [] [] .crLfK (by decide) (by decide) (by decide)⟩

theorem tag_exact (t x : List Char) : tag t (t ++ x) = .ok t.length t := by
  simp [tag, List.isPrefixOf_iff_prefix, List.prefix_append]

theorem hex_digit1_run {r t : List Char} (hne : r ≠ [])
    (hall : ∀ c ∈ r, is_hex_digit c = true)
    (ht : ∀ c, t.head? = some c → is_hex_digit c = false) :
    hex_digit1 (r ++ t) = .ok r.length r := by
  obtain ⟨htk, _⟩ := takeWhile_all_append hall ht
  have hie : r.isEmpty = false := by
    cases r with
    | nil => exact absurd rfl hne
    | cons a r' => rfl
  simp [hex_digit1, takeWhile1, htk, hie]

theorem lower_hex_is_hex : ∀ c ∈ lowerHexDigits, is_hex_digit c = true := by decide

theorem lower_hex_some : ∀ c ∈ lowerHexDigits, (char_to_dot c).isSome := by decide

theorem dashTail_head (rs : List (List Char)) :
    ∀ c, (dashTail rs).head? = some c → is_hex_digit c = false := by
  cases rs with
  | nil => intro c hc; cases hc
  | cons r rs' =>
    intro c hc
    injection hc with e
    subst e
    decide

theorem mapOption_char_all {r : List Char} (h : ∀ c ∈ r, (char_to_dot c).isSome) :
    mapOption char_to_dot r = some (r.filterMap char_to_dot) := by
  induction r with
  | nil => rfl
  | cons a t ih =>
    obtain ⟨d, hd⟩ := Option.isSome_iff_exists.mp (h a (by simp))
    have iht := ih (fun c hc => h c (by simp [hc]))
    simp [mapOption, hd, iht, List.filterMap_cons]

theorem chars_to_dots_eq {r : List Char} (h : ∀ c ∈ r, (char_to_dot c).isSome) :
    chars_to_dots r = some (cellOf r) := by
  simp [chars_to_dots, mapOption_char_all h, cellOf]

theorem mapOption_cells {rs : List (List Char)}
    (h : ∀ r ∈ rs, ∀ c ∈ r, c ∈ lowerHexDigits) :
    mapOption chars_to_dots rs = some (rs.map cellOf) := by
  induction rs with
  | nil => rfl
  | cons r rs' ih =>
    have hr : chars_to_dots r = some (cellOf r) :=
      chars_to_dots_eq (fun c hc => lower_hex_some c (h r (by simp) c hc))
    have iht := ih (fun r' h' c hc => h r' (by simp [h']) c hc)
    simp [mapOption, hr, iht]

theorem sepHexLoop_dashTail (rs : List (List Char)) :
    ∀ fuel, (dashTail rs).length < fuel →
    (∀ r ∈ rs, r ≠ [] ∧ ∀ c ∈ r, c ∈ lowerHexDigits) →
    sepHexLoop fuel (dashTail rs) = .ok (dashTail rs).length rs := by
  induction rs with
  | nil =>
    intro fuel hf _
    cases fuel with
    | zero => omega
    | succ f => simp [sepHexLoop, dashTail, tag, List.isPrefixOf]
  | cons r rs' ih =>
    intro fuel hf hall
    cases fuel with
    | zero => omega
    | succ f =>
      have hrne : r ≠ [] := (hall r (by simp)).1
      have hrhex : ∀ c ∈ r, is_hex_digit c = true :=
        fun c hc => lower_hex_is_hex c ((hall r (by simp)).2 c hc)
      have htag : tag ['-'] (dashTail (r :: rs')) = .ok 1 ['-'] := by
        simp [dashTail, tag, List.isPrefixOf]
      have hdrop1 : (dashTail (r :: rs')).drop 1 = r ++ dashTail rs' := by
        simp [dashTail]
      have hhex : hex_digit1 (r ++ dashTail rs') = .ok r.length r :=
        hex_digit1_run hrne hrhex (dashTail_head rs')
      have hdrop2 : (r ++ dashTail rs').drop r.length = dashTail rs' := by
        rw [List.drop_left]
      have hlen : (dashTail (r :: rs')).length =
          1 + (r.length + (dashTail rs').length) := by
        simp [dashTail]
        omega
      have hrec : sepHexLoop f (dashTail rs') = .ok (dashTail rs').length rs' := by
        apply ih f (by omega) (fun r' h' => hall r' (by simp [h']))
      simp only [sepHexLoop, htag, hdrop1, hdrop2, hhex, hrec]
      rw [if_neg (by rw [List.length_append, hlen]; omega)]
      rw [hlen]

theorem hex_list_dashJoin (r : List Char) (rs : List (List Char))
    (hr : r ≠ [] ∧ ∀ c ∈ r, c ∈ lowerHexDigits)
    (hall : ∀ r' ∈ rs, r' ≠ [] ∧ ∀ c ∈ r', c ∈ lowerHexDigits) :
    hex_list (dashJoin (r :: rs)) = .ok (dashJoin (r :: rs)).length (r :: rs) := by
  have hj : dashJoin (r :: rs) = r ++ dashTail rs := rfl
  have hhex : hex_digit1 (r ++ dashTail rs) = .ok r.length r :=
    hex_digit1_run hr.1 (fun c hc => lower_hex_is_hex c (hr.2 c hc))
      (dashTail_head rs)
  have hdrop : (r ++ dashTail rs).drop r.length = dashTail rs := by
    rw [List.drop_left]
  have hloop : sepHexLoop ((dashTail rs).length + 1) (dashTail rs) =
      .ok (dashTail rs).length rs :=
    sepHexLoop_dashTail rs ((dashTail rs).length + 1) (by omega) hall
  rw [hj]
  simp only [hex_list, hhex, hdrop, hloop]
  rw [List.length_append]

theorem char_to_dot_eq_char {a : Char} {d : BrailleDot}
    (h : char_to_dot a = some d) : a = dot_to_char d := by
  unfold char_to_dot at h
  split at h <;> first
  | (injection h with e; subst e; rfl)
  | (cases h)

theorem char_to_dot_inj {a b : Char} {d : BrailleDot}
    (ha : char_to_dot a = some d) (hb : char_to_dot b = some d) : a = b := by
  rw [char_to_dot_eq_char ha, char_to_dot_eq_char hb]

theorem cellOf_card {r : List Char} (h : ∀ c ∈ r, c ∈ lowerHexDigits) :
    (cellOf r).card = r.dedup.length := by
  induction r with
  | nil => simp [cellOf]
  | cons a t ih =>
    have ha := h a (by simp)
    obtain ⟨d, hd⟩ := Option.isSome_iff_exists.mp (lower_hex_some a ha)
    have hcell : cellOf (a :: t) = insert d (cellOf t) := by
      simp [cellOf, List.filterMap_cons, hd, List.toFinset_cons]
    have iht := ih (fun c hc => h c (by simp [hc]))
    by_cases hmem : a ∈ t
    · have hdmem : d ∈ cellOf t := by
        simp only [cellOf, List.mem_toFinset, List.mem_filterMap]
        exact ⟨a, hmem, hd⟩
      rw [hcell, Finset.insert_eq_self.mpr hdmem, List.dedup_cons_of_mem hmem]
      exact iht
    · have hdnot : d ∉ cellOf t := by
        intro hc
        simp only [cellOf, List.mem_toFinset, List.mem_filterMap] at hc
        obtain ⟨b, hb, hbd⟩ := hc
        exact hmem (char_to_dot_inj hd hbd ▸ hb)
      rw [hcell, Finset.card_insert_of_not_mem hdnot,
        List.dedup_cons_of_not_mem hmem]
      simp [iht]

/-- C6: a string of dash-separated non-empty runs of lowercase hex digits
parses with `dots` into exactly one cell per run, in the original run
order, consuming the whole string; each cell is the union of the dots of
its run's characters, so its flag count equals the number of distinct
characters in the run. -/
theorem claimC6_dots (rs : List (List Char)) (hne : rs ≠ [])
    (hall : ∀ r ∈ rs, r ≠ [] ∧ ∀ c ∈ r, c ∈ lowerHexDigits) :
    dots (dashJoin rs) = .ok (dashJoin rs).length (rs.map cellOf) ∧
      ∀ r ∈ rs, (cellOf r).card = r.dedup.length := by
  constructor
  · cases rs with
    | nil => exact absurd rfl hne
    | cons r rs' =>
      have hl := hex_list_dashJoin r rs' (hall r (by simp))
        (fun r' h' => hall r' (by simp [h']))
      have hm : mapOption chars_to_dots (r :: rs') =
          some ((r :: rs').map cellOf) :=
        mapOption_cells (fun r' h' c hc => (hall r' h').2 c hc)
      simp only [dots, hl, hm]
  · intro r' hr'
    exact cellOf_card (hall r' hr').2

theorem claimC6_witness :
    dots (dashJoin [("123".toList), ("1f".toList), ("78".toList)]) =
      .ok (dashJoin [("123".toList), ("1f".toList), ("78".toList)]).length
        ([("123".toList), ("1f".toList), ("78".toList)].map cellOf) ∧
    ∀ r ∈ [("123".toList), ("1f".toList), ("78".toList)],
        (cellOf r).card = r.dedup.length :=
  claimC6_dots [("123".toList), ("1f".toList), ("78".toList)] (by decide) (by decide)

theorem sepHexLoop_stop (x : List Char) (fuel : Nat)
    (hx : ∀ c, x.head? = some c → is_hex_digit c = false) :
    sepHexLoop (fuel + 1) ('-' :: x) = .ok 0 [] := by
  have htag : tag ['-'] ('-' :: x) = .ok 1 ['-'] := by
    simp [tag, List.isPrefixOf]
  have hhex : hex_digit1 x = .error x .hexDigitK := by
    cases x with
    | nil => rfl
    | cons c t =>
      have hc := hx c rfl
      simp [hex_digit1, takeWhile1, List.takeWhile_cons, hc]
  simp only [sepHexLoop, htag, List.drop_succ_cons, List.drop_zero,
    List.length_cons]
  rw [if_neg (by omega)]
  simp [hhex]

theorem dots_stops_at_empty_run (r x : List Char) (hne : r ≠ [])
    (hhex : ∀ c ∈ r, c ∈ lowerHexDigits)
    (hx : ∀ c, x.head? = some c → is_hex_digit c = false) :
    dots (r ++ '-' :: x) = .ok r.length [cellOf r] := by
  have h1 : hex_digit1 (r ++ '-' :: x) = .ok r.length r :=
    hex_digit1_run hne (fun c hc => lower_hex_is_hex c (hhex c hc))
      (by intro c hc; injection hc with e; subst e; decide)
  have hdrop : (r ++ '-' :: x).drop r.length = '-' :: x := by
    rw [List.drop_left]
  have hloop := sepHexLoop_stop x (('-' :: x : List Char)).length hx
  have hch : chars_to_dots r = some (cellOf r) :=
    chars_to_dots_eq (fun c hc => lower_hex_some c (hhex c hc))
  simp only [dots, hex_list, h1, hdrop, hloop, mapOption, hch]
  simp

/-- C2 counterexample: the input "1-" contains an empty (trailing) run, yet
`dots` succeeds, consuming only the first run of the two-character input
and leaving the dash unconsumed, instead of failing. -/
theorem claimC2_counterexample :
    dots ("1-".toList) = .ok 1 [({BrailleDot.DOT1} : BrailleChar)] ∧
      ("1-".toList).length = 2 := by decide

/-- C2 (amended): `dots` fails when the input has zero runs or an empty
first run (empty input, or a first character that is not a hex digit, such
as a leading dash); an empty run created by a doubled or trailing dash,
however, does not make it fail: `dots` then succeeds, consuming only the
complete runs before the first empty run and leaving the dash and
everything after it unconsumed. -/
theorem claimC2_dots_empty_runs :
    (∀ i, (∀ c, i.head? = some c → is_hex_digit c = false) →
        dots i = .error i .hexDigitK) ∧
    (∀ r x, r ≠ [] → (∀ c ∈ r, c ∈ lowerHexDigits) →
        (∀ c, x.head? = some c → is_hex_digit c = false) →
        dots (r ++ '-' :: x) = .ok r.length [cellOf r]) := by
  constructor
  · intro i h
    cases i with
    | nil => rfl
    | cons c t =>
      have hc := h c rfl
      simp [dots, hex_list, hex_digit1, takeWhile1, List.takeWhile_cons, hc]
  · intro r x hne hhex hx
    exact dots_stops_at_empty_run r x hne hhex hx

theorem claimC2_witness :
    dots ("-1".toList) = .error ("-1".toList) .hexDigitK ∧
    dots (['1'] ++ '-' :: ('-' :: ("2".toList))) =
      .ok (['1'] : List Char).length [cellOf ['1']] ∧
    dots (['1'] ++ '-' :: ([] : List Char)) =
      .ok (['1'] : List Char).length [cellOf ['1']] :=
  ⟨claimC2_dots_empty_runs.1 ("-1".toList) (by decide),
   claimC2_dots_empty_runs.2 ['1'] ('-' :: ("2".toList)) (by decide) (by decide)
     (by decide),
   claimC2_dots_empty_runs.2 ['1'] [] (by decide) (by decide) (by decide)⟩

/-- C1 (code bug): on an uppercase hexadecimal letter where a dot digit is
expected, `dots` does not return a "not a hex digit" error: nom's
`hex_digit1` accepts uppercase `A-F`, so the run is handed to
`chars_to_dots`, whose `char_to_dot(..).unwrap()` panics on the `None` it
gets for an uppercase letter; the program crashes instead of failing. -/
theorem claimC1_dots_uppercase_panics :
    dots ("F".toList) = .panic ∧
      is_hex_digit 'F' = true ∧ char_to_dot 'F' = none := by decide

/-- C7 (code bug): `table` is meant never to fail, returning the parsed
prefix and leaving the remainder unconsumed, but on an input whose dot
pattern contains an uppercase hex digit the `chars_to_dots` unwrap panics
inside `many0(line)`, so `table` crashes instead of succeeding. -/
theorem claimC7_table_panics : table ("undefined F\n".toList) = .panic := by
  decide

theorem unicode_alpha_not_space {c : Char} (h : is_unicode_alpha c = true) :
    is_space c = false := by
  by_contra hs
  have hs' : is_space c = true := by
    cases hx : is_space c
    · exact absurd hx hs
    · rfl
  have hcs : c = ' ' ∨ c = '\t' := by
    simp [is_space] at hs'
    exact hs'
  rcases hcs with rfl | rfl
  · exact absurd h (by decide)
  · exact absurd h (by decide)

/-- C3 counterexample: "include über" parses successfully, capturing the
filename "über", although 'ü' is not an ASCII letter: the include filename
is not restricted to ASCII letters, and the parse does not fail on a word
beginning with a non-ASCII alphabetic character. -/
theorem claimC3_counterexample :
    include_rule ("include über".toList) =
      .ok 12 (Rule.Include ("über".toList)) ∧
      ('ü' ∈ "über".toList ∧ is_ascii_alpha 'ü' = false) := by decide

theorem ascii_nonletter_not_alpha {c : Char} (h1 : c.toNat < 0x80)
    (h2 : is_ascii_alpha c = false) : is_unicode_alpha c = false := by
  have hd : (decide (0xC0 ≤ c.toNat ∧ c.toNat ≤ 0xFF ∧
      c.toNat ≠ 0xD7 ∧ c.toNat ≠ 0xF7)) = false := by
    rw [decide_eq_false_iff_not]
    intro hc
    omega
  simp [is_unicode_alpha, h2, hd]

/-- C3 (amended): the include rule's filename argument uses the same
Unicode-letter word parser `chars` as every other rule (the ASCII-only
`ascii_chars` is defined but unused): with the keyword and its required
whitespace, the parse fails when the filename position begins with an
ASCII non-letter, and succeeds when it begins with a word of
Unicode-alphabetic characters followed by an ASCII non-letter or the end
of input, capturing that whole word — which may contain non-ASCII
letters.  (The negative hypotheses are stated only at characters below
U+0080, where the `is_unicode_alpha` model coincides exactly with the
Unicode Alphabetic property.) -/
theorem claimC3_include_unicode :
    (∀ w rest, w ≠ [] → (∀ c ∈ w, is_unicode_alpha c = true) →
        (∀ c, rest.head? = some c → c.toNat < 0x80 ∧ is_ascii_alpha c = false) →
        include_rule (("include".toList) ++ ' ' :: (w ++ rest)) =
          .ok (8 + w.length) (Rule.Include w)) ∧
    (∀ c t, c.toNat < 0x80 → is_ascii_alpha c = false → is_space c = false →
        include_rule (("include".toList) ++ ' ' :: (c :: t)) =
          .error (c :: t) .alphaK) := by
  constructor
  · intro w rest hne hw hrest0
    have hrest : ∀ c, rest.head? = some c → is_unicode_alpha c = false :=
      fun c hc => ascii_nonletter_not_alpha (hrest0 c hc).1 (hrest0 c hc).2
    have htag := tag_exact ("include".toList) (' ' :: (w ++ rest))
    have hdropt : (("include".toList) ++ ' ' :: (w ++ rest)).drop
        ("include".toList).length = ' ' :: (w ++ rest) := by
      rw [List.drop_left]
    have hsp : space1 (' ' :: (w ++ rest)) = .ok 1 [' '] := by
      cases w with
      | nil => exact absurd rfl hne
      | cons c0 w' =>
        have hc0 : is_space c0 = false :=
          unicode_alpha_not_space (hw c0 (by simp))
        have hsp1 : is_space ' ' = true := rfl
        simp [space1, takeWhile1, List.takeWhile_cons, hc0, hsp1]
    have hdrops : ((' ' :: (w ++ rest) : List Char)).drop 1 = w ++ rest := rfl
    have hword : chars (w ++ rest) = .ok w.length w := by
      obtain ⟨ht, _⟩ := takeWhile_all_append hw hrest
      have hie : w.isEmpty = false := by
        cases w with
        | nil => exact absurd rfl hne
        | cons c0 w' => rfl
      simp [chars, unicode_alpha1, takeWhile1, ht, hie]
    simp only [include_rule, pbind, pmap, htag, hdropt, hsp, hdrops, hword]
    simp
    omega
  · intro c t hlt hna hns
    have hca : is_unicode_alpha c = false := ascii_nonletter_not_alpha hlt hna
    have htag := tag_exact ("include".toList) (' ' :: (c :: t))
    have hdropt : (("include".toList) ++ ' ' :: (c :: t)).drop
        ("include".toList).length = ' ' :: (c :: t) := by
      rw [List.drop_left]
    have hsp : space1 (' ' :: (c :: t)) = .ok 1 [' '] := by
      have hsp1 : is_space ' ' = true := rfl
      simp [space1, takeWhile1, List.takeWhile_cons, hns, hsp1]
    have hdrops : ((' ' :: (c :: t) : List Char)).drop 1 = c :: t := rfl
    have hword : chars (c :: t) = .error (c :: t) .alphaK := by
      simp [chars, unicode_alpha1, takeWhile1, List.takeWhile_cons, hca]
    simp only [include_rule, pbind, pmap, htag, hdropt, hsp, hdrops, hword]

theorem claimC3_witness :
    (include_rule (("include".toList) ++ ' ' ::
        (("über".toList) ++ ([] : List Char))) =
      .ok (8 + ("über".toList).length) (Rule.Include ("über".toList))) ∧
    include_rule (("include".toList) ++ ' ' :: ('1' :: ("23".toList))) =
      .error ('1' :: ("23".toList)) .alphaK :=
  ⟨claimC3_include_unicode.1 ("über".toList) [] (by decide) (by decide)
     (by decide),
   claimC3_include_unicode.2 '1' ("23".toList) (by decide) (by decide)
     (by decide)⟩
